import Mathlib

/-!
Shallow embedding of the data model and persistence logic of
src/app_tree.py: the Node entity, the ReadingTree registry with its
add_node, to_graph, save and load operations, together with the
invariants and fixtures the verification uses.

Conventions of the embedding:
* the Python dict self.nodes is an insertion ordered association list;
  assignment updates an existing key in place and appends a new one;
* Python None becomes Option.none;
* the uuid4 values generated by the code are supplied as explicit
  arguments (a single string, or a stream indexed by position), since
  they are produced by the standard library outside this repository;
* an operation that can raise returns its final state next to the
  outcome, so that the state left behind by a raised error is visible;
* the persisted file is modelled at the level json.loads sees it: the
  path may be absent, the text may be malformed, or it parses to an
  array of entry objects with the five known fields.
-/

deriving instance DecidableEq for Except

namespace AppTree

/-- A work record, as built by the Python class Node in app_tree.py.
Optional fields keep Python None as Option.none. -/
structure Node where
  id : String
  title : String
  author : Option String
  image_url : Option String
  antes : List String
deriving DecidableEq

/-- Python Node.__init__. The statement self.id = id or str(uuid.uuid4())
regenerates the id when the argument is None or the empty string, both
falsy in Python; self.antes = antes or [] turns None into the empty list.
The uuid4 value the code would generate is passed in as fresh. -/
def Node.make (fresh : String) (title : String) (author : Option String)
    (image_url : Option String) (antes : Option (List String))
    (idArg : Option String) : Node :=
  { id := match idArg with
      | none => fresh
      | some s => if s = "" then fresh else s
    title := title
    author := author
    image_url := image_url
    antes := antes.getD [] }

/-- One persisted entry, a JSON object with the five known fields; a
field that is absent, or holds JSON null where Python reads it back with
dict.get, is Option.none. -/
structure NodeDict where
  id : Option String
  title : Option String
  author : Option String
  image_url : Option String
  antes : Option (List String)
deriving DecidableEq

/-- Python Node.to_dict. -/
def Node.to_dict (n : Node) : NodeDict :=
  { id := some n.id
    title := some n.title
    author := n.author
    image_url := n.image_url
    antes := some n.antes }

/-- Errors of ReadingTree.load: parseError models json.loads failing on
malformed text, schemaError models the KeyError that Node.from_dict
raises through d["title"] when an entry has no title field. -/
inductive LoadError
  | parseError
  | schemaError
deriving DecidableEq

/-- The Node built by Node.from_dict once the required title t has been
read from the entry: Node(id=d.get("id"), title=d["title"],
author=d.get("author"), image_url=d.get("image_url"),
antes=d.get("antes", [])). -/
def loadedNode (fresh : String) (d : NodeDict) (t : String) : Node :=
  Node.make fresh t d.author d.image_url (some (d.antes.getD [])) d.id

/-- Python Node.from_dict: d["title"] raises KeyError when the field is
absent; every other field falls back to a default via dict.get. -/
def Node.from_dict (fresh : String) (d : NodeDict) : Except LoadError Node :=
  match d.title with
  | none => Except.error LoadError.schemaError
  | some t => Except.ok (loadedNode fresh d t)

/-- The registry dict self.nodes of the class ReadingTree: an insertion
ordered mapping from title to Node, as an association list. -/
abbrev ReadingTree := List (String × Node)

/-- The keys of the registry dict, in order. -/
def keys (tr : ReadingTree) : List String := tr.map Prod.fst

/-- Python dict assignment self.nodes[k] = v: update an existing key in
place, append a new one. -/
def dictInsert (tr : ReadingTree) (k : String) (v : Node) : ReadingTree :=
  if k ∈ keys tr then tr.map (fun p => if p.1 = k then (k, v) else p)
  else tr ++ [(k, v)]

/-- Python dict read: the value stored under key t, if any. -/
def getVal : ReadingTree → String → Option Node
  | [], _ => none
  | p :: r, t => if p.1 = t then some p.2 else getVal r t

/-- Python ReadingTree.add_node. The pair holds the final registry state
and the outcome: the message of the raised ValueError on a duplicate
title, otherwise the value the method returns, which is None because the
method body has no return statement. The uuid4 generated for the new
Node is passed in as fresh. -/
def add_node (tr : ReadingTree) (fresh : String) (title : String)
    (author : Option String) (image_url : Option String)
    (antes : Option (List String)) : ReadingTree × Except String (Option Node) :=
  if title ∈ keys tr then
    (tr, Except.error "Ya existe una obra con ese título")
  else
    (dictInsert tr title
      (Node.make fresh title author image_url (some (antes.getD [])) none),
     Except.ok none)

/-- A networkx DiGraph restricted to what to_graph uses: the node list
and the directed edge list, both duplicate free by construction. -/
structure Graph where
  nodes : List String
  edges : List (String × String)
deriving DecidableEq

/-- networkx DiGraph.add_node: adding a node already present changes
nothing. -/
def Graph.add_node (G : Graph) (t : String) : Graph :=
  if t ∈ G.nodes then G else { G with nodes := G.nodes ++ [t] }

/-- networkx DiGraph.add_edge: absent endpoints are added as nodes, and
an edge already present is not duplicated. -/
def Graph.add_edge (G : Graph) (u v : String) : Graph :=
  let G1 := (G.add_node u).add_node v
  if (u, v) ∈ G1.edges then G1 else { G1 with edges := G1.edges ++ [(u, v)] }

/-- Python ReadingTree.to_graph: add every title as a node, then for
every work t and every b in its antes list add the edge b -> t when b is
a key of the registry; a prerequisite naming an unknown title is skipped
silently. -/
def to_graph (tr : ReadingTree) : Graph :=
  let G0 := tr.foldl (fun G p => G.add_node p.1) { nodes := [], edges := [] }
  tr.foldl
    (fun G p => p.2.antes.foldl
      (fun G b => if b ∈ keys tr then G.add_edge b p.1 else G) G) G0

/-- The state of the persisted file as json.loads sees it: malformed
text, or a JSON array of entry objects. -/
inductive Snapshot
  | malformed
  | entries (data : List NodeDict)
deriving DecidableEq

/-- Python ReadingTree.save: serialize the dict values, in order. -/
def save (tr : ReadingTree) : Snapshot :=
  Snapshot.entries (tr.map (fun p => p.2.to_dict))

/-- The loop of ReadingTree.load: for d in data: n = Node.from_dict(d);
self.nodes[n.title] = n. A raised error propagates at once and leaves
the partially rebuilt dict in place. The entry at position i consumes
the uuid4 value freshs i. -/
def loadLoop (freshs : Nat → String) :
    List NodeDict → Nat → ReadingTree → ReadingTree × Option LoadError
  | [], _, nodes => (nodes, none)
  | d :: ds, i, nodes =>
    match Node.from_dict (freshs i) d with
    | Except.error e => (nodes, some e)
    | Except.ok n => loadLoop freshs ds (i + 1) (dictInsert nodes n.title n)

/-- Python ReadingTree.load: a missing path returns at once; json.loads
runs before self.nodes = {} so a parse failure leaves the registry
untouched; a parsed array replaces the registry through loadLoop
starting from the empty dict. The pair holds the final registry state
and the raised error, if any. -/
def load (tr : ReadingTree) (file : Option Snapshot) (freshs : Nat → String) :
    ReadingTree × Option LoadError :=
  match file with
  | none => (tr, none)
  | some Snapshot.malformed => (tr, some LoadError.parseError)
  | some (Snapshot.entries data) => loadLoop freshs data 0 []

/-- Every key of the registry dict equals the title of the Node stored
under it. -/
abbrev KeyInv (tr : ReadingTree) : Prop := ∀ p ∈ tr, p.2.title = p.1

/-- The keys of the registry dict are pairwise distinct. -/
abbrev KeysNodup (tr : ReadingTree) : Prop := (keys tr).Nodup

/-- Registry states reachable from the empty registry through add_node
and load, with arbitrary uuid4 supplies and file contents. -/
inductive Reachable : ReadingTree → Prop
  | init : Reachable []
  | step_add (tr : ReadingTree) (fresh title : String)
      (author image_url : Option String) (antes : Option (List String)) :
      Reachable tr → Reachable (add_node tr fresh title author image_url antes).1
  | step_load (tr : ReadingTree) (file : Option Snapshot) (freshs : Nat → String) :
      Reachable tr → Reachable (load tr file freshs).1

/-- The Node produced by the last entry of data whose title field is t,
with the uuid4 supply aligned to the position of that entry. -/
def lastLoaded (freshs : Nat → String) (t : String) :
    List NodeDict → Nat → Option Node
  | [], _ => none
  | d :: ds, i =>
    match lastLoaded freshs t ds (i + 1) with
    | some n => some n
    | none =>
      match d.title with
      | some s => if s = t then some (loadedNode (freshs i) d s) else none
      | none => none

/-- Fixture: a registry holding one work titled A. -/
def nodeA : Node :=
  { id := "f1", title := "A", author := none, image_url := none, antes := [] }

/-- Fixture: the singleton registry with nodeA under its title. -/
def trA : ReadingTree := [("A", nodeA)]

/-- Fixture: a work carrying the empty string as its title. -/
def emptyTitleNode : Node :=
  { id := "f1", title := "", author := none, image_url := none, antes := [] }

/-- Fixture: the work Old sitting in the registry before a failing load. -/
def nodeOld : Node :=
  { id := "i0", title := "Old", author := none, image_url := none, antes := [] }

/-- Fixture: the registry holding only Old. -/
def trOld : ReadingTree := [("Old", nodeOld)]

/-- Fixture: a well formed persisted entry titled A. -/
def dGood : NodeDict :=
  { id := some "i1", title := some "A", author := none, image_url := none,
    antes := some [] }

/-- Fixture: a persisted entry missing the required title field. -/
def dBad : NodeDict :=
  { id := some "i2", title := none, author := none, image_url := none,
    antes := none }

/-- Fixture: the Node that loading dGood produces. -/
def nodeFromGood : Node :=
  { id := "i1", title := "A", author := none, image_url := none, antes := [] }

/-- Fixture: work X of the cyclic example, listing Y as prerequisite. -/
def nodeX : Node :=
  { id := "idX", title := "X", author := none, image_url := none, antes := ["Y"] }

/-- Fixture: work Y of the cyclic example, listing X as prerequisite. -/
def nodeY : Node :=
  { id := "idY", title := "Y", author := none, image_url := none, antes := ["X"] }

/-- Fixture: the cyclic registry with X and Y listing each other. -/
def trXY : ReadingTree := [("X", nodeX), ("Y", nodeY)]

/-- Fixture: work A of the dangling reference example. -/
def nodeA2 : Node :=
  { id := "iA", title := "A", author := none, image_url := none, antes := [] }

/-- Fixture: work B, requiring A. -/
def nodeB2 : Node :=
  { id := "iB", title := "B", author := none, image_url := none, antes := ["A"] }

/-- Fixture: work C, requiring A and the absent Zzz. -/
def nodeC2 : Node :=
  { id := "iC", title := "C", author := none, image_url := none,
    antes := ["A", "Zzz"] }

/-- Fixture: the registry of the dangling reference example. -/
def trABC : ReadingTree := [("A", nodeA2), ("B", nodeB2), ("C", nodeC2)]

/-- Fixture: a work with every field populated, for the round trip. -/
def rtA : Node :=
  { id := "i1", title := "A", author := some "aa", image_url := some "uu",
    antes := ["B"] }

/-- Fixture: a second work for the round trip. -/
def rtB : Node :=
  { id := "i2", title := "B", author := none, image_url := none, antes := [] }

/-- Fixture: the two work registry used by the round trip witness. -/
def trRT : ReadingTree := [("A", rtA), ("B", rtB)]

/-- Fixture: first persisted entry titled T. -/
def dT1 : NodeDict :=
  { id := some "i1", title := some "T", author := some "a1", image_url := none,
    antes := some [] }

/-- Fixture: second persisted entry, also titled T. -/
def dT2 : NodeDict :=
  { id := some "i2", title := some "T", author := some "a2", image_url := none,
    antes := some [] }

end AppTree

namespace AppTree

/-- An Option matched back onto itself is itself. -/
theorem optionMatchId (o : Option Node) :
    (match o with | some n => some n | none => none) = o := by
  cases o <;> rfl

/-- A key that is not in the dict has no stored value. -/
theorem getVal_of_not_mem (tr : ReadingTree) (t : String) (h : t ∉ keys tr) :
    getVal tr t = none := by
  induction tr with
  | nil => rfl
  | cons p r ih =>
    simp only [keys, List.map_cons, List.mem_cons, not_or] at h
    have hne : ¬ p.1 = t := fun hc => h.1 hc.symm
    simp only [getVal, if_neg hne]
    exact ih (by simpa [keys] using h.2)

/-- Reading an appended dict scans the left part first. -/
theorem getVal_append (l1 l2 : ReadingTree) (t : String) :
    getVal (l1 ++ l2) t =
      match getVal l1 t with
      | some v => some v
      | none => getVal l2 t := by
  induction l1 with
  | nil => simp [getVal]
  | cons p r ih =>
    by_cases h : p.1 = t <;> simp [getVal, h, ih]

/-- Reading the dict after an in place update of key k. -/
theorem getVal_update (tr : ReadingTree) (k : String) (v : Node) (t : String) :
    getVal (tr.map (fun p => if p.1 = k then (k, v) else p)) t =
      if t = k then (if k ∈ keys tr then some v else none)
      else getVal tr t := by
  induction tr with
  | nil => by_cases h : t = k <;> simp [getVal, keys, h]
  | cons p r ih =>
    simp only [List.map_cons]
    by_cases hp : p.1 = k
    · rw [if_pos hp]
      by_cases ht : t = k
      · subst ht
        have hmem : t ∈ keys (p :: r) := by
          simp only [keys, List.map_cons, List.mem_cons]
          exact Or.inl hp.symm
        simp [getVal, hmem]
      · have hkt : ¬ k = t := fun hc => ht hc.symm
        have hpt : ¬ p.1 = t := by rw [hp]; exact hkt
        simp [getVal, hkt, hpt, ih, ht]
    · rw [if_neg hp]
      by_cases ht : t = k
      · subst ht
        have hpt : ¬ p.1 = t := hp
        have htp : ¬ t = p.1 := fun hc => hp hc.symm
        simp [getVal, keys, hpt, htp, ih, List.mem_cons]
        by_cases hmem : t ∈ List.map Prod.fst r
        · rw [if_pos hmem, if_pos (List.mem_cons.2 (Or.inr hmem))]
        · rw [if_neg hmem,
            if_neg (fun hc => (List.mem_cons.1 hc).elim htp hmem)]
      · by_cases hpt : p.1 = t <;> simp [getVal, keys, hpt, ih, ht]

/-- Reading the dict after a Python dict assignment. -/
theorem getVal_dictInsert (tr : ReadingTree) (k : String) (v : Node) (t : String) :
    getVal (dictInsert tr k v) t = if t = k then some v else getVal tr t := by
  unfold dictInsert
  by_cases hk : k ∈ keys tr
  · simp [hk, getVal_update]
  · rw [if_neg hk, getVal_append]
    by_cases ht : t = k
    · subst ht
      rw [getVal_of_not_mem tr t hk]
      simp [getVal]
    · rw [if_neg ht]
      have hkt : ¬ k = t := fun hc => ht hc.symm
      have hnone : getVal [(k, v)] t = none := by simp [getVal, hkt]
      rw [hnone]
      exact optionMatchId _

/-- The keys of the dict after a Python dict assignment. -/
theorem keys_dictInsert (tr : ReadingTree) (k : String) (v : Node) :
    keys (dictInsert tr k v) =
      if k ∈ keys tr then keys tr else keys tr ++ [k] := by
  unfold dictInsert
  by_cases hk : k ∈ keys tr
  · rw [if_pos hk, if_pos hk]
    simp only [keys, List.map_map]
    apply List.map_congr_left
    intro p _
    by_cases h : p.1 = k
    · simp [Function.comp, h]
    · simp [Function.comp, h]
  · rw [if_neg hk, if_neg hk]
    simp [keys]

/-- A dict assignment that stores v under its own title keeps the key
equals title invariant. -/
theorem keyInv_dictInsert (tr : ReadingTree) (k : String) (v : Node)
    (h : KeyInv tr) (hv : v.title = k) : KeyInv (dictInsert tr k v) := by
  unfold dictInsert
  by_cases hk : k ∈ keys tr
  · rw [if_pos hk]
    intro p hp
    rw [List.mem_map] at hp
    obtain ⟨q, hq, hpq⟩ := hp
    by_cases h1 : q.1 = k
    · rw [if_pos h1] at hpq
      rw [← hpq]
      exact hv
    · rw [if_neg h1] at hpq
      rw [← hpq]
      exact h q hq
  · rw [if_neg hk]
    intro p hp
    rcases List.mem_append.1 hp with h1 | h1
    · exact h p h1
    · rw [List.mem_singleton] at h1
      rw [h1]
      exact hv

/-- A dict assignment keeps the keys pairwise distinct. -/
theorem keysNodup_dictInsert (tr : ReadingTree) (k : String) (v : Node)
    (h : KeysNodup tr) : KeysNodup (dictInsert tr k v) := by
  unfold KeysNodup
  rw [keys_dictInsert]
  by_cases hk : k ∈ keys tr
  · rw [if_pos hk]; exact h
  · rw [if_neg hk, List.nodup_append]
    refine ⟨h, List.nodup_singleton k, ?_⟩
    intro a ha hb
    rw [List.mem_singleton] at hb
    subst hb
    exact hk ha

/-- Claim C1: adding a work whose title is already a key of the registry
raises the duplicate title ValueError and leaves the registry exactly as
it was, so count and contents are identical before and after. -/
theorem C1_duplicate_title_rejected (tr : ReadingTree) (fresh title : String)
    (author image_url : Option String) (antes : Option (List String))
    (h : title ∈ keys tr) :
    add_node tr fresh title author image_url antes =
      (tr, Except.error "Ya existe una obra con ese título") := by
  simp [add_node, h]

/-- Witness for C1 at the singleton registry trA. -/
theorem C1_witness :
    "A" ∈ keys trA ∧
    add_node trA "f2" "A" none none none =
      (trA, Except.error "Ya existe una obra con ese título") :=
  ⟨by decide, C1_duplicate_title_rejected trA "f2" "A" none none none (by decide)⟩

/-- Counterexample to claim C5 as stated: adding the empty title to the
empty registry is not rejected; it succeeds and stores a work whose
title is the empty string, mutating the registry. -/
theorem C5_counterexample :
    add_node [] "f1" "" none none none =
      ([("", emptyTitleNode)], Except.ok none) ∧
    ([("", emptyTitleNode)] : ReadingTree) ≠ [] := by
  constructor <;> decide

/-- Claim C5 (amended): the Registry itself performs no empty title
check; that validation lives only in the caller. add_node with the empty
title, when no work with empty title is present, succeeds like any other
title and stores a work with empty title keyed by the empty string. -/
theorem C5_empty_title_accepted (tr : ReadingTree) (fresh : String)
    (author image_url : Option String) (antes : Option (List String))
    (h : "" ∉ keys tr) :
    add_node tr fresh "" author image_url antes =
      (tr ++
        [("",
          { id := fresh, title := "", author := author,
            image_url := image_url, antes := antes.getD [] })],
       Except.ok none) := by
  simp [add_node, h, dictInsert, Node.make]

/-- Witness for the amended C5 at the empty registry. -/
theorem C5_witness :
    "" ∉ keys ([] : ReadingTree) ∧
    add_node [] "f1" "" none none none =
      (([] : ReadingTree) ++
        [("",
          { id := "f1", title := "", author := none,
            image_url := none, antes := (none : Option (List String)).getD [] })],
       Except.ok none) :=
  ⟨by decide, C5_empty_title_accepted [] "f1" none none none (by decide)⟩

/-- Counterexample to claim C6 as stated: the successful add stores the
created work in the registry, but the method returns None rather than
the created Work. -/
theorem C6_counterexample :
    (add_node [] "f1" "A" none none none).1 = [("A", nodeA)] ∧
    (add_node [] "f1" "A" none none none).2 = Except.ok none ∧
    (add_node [] "f1" "A" none none none).2 ≠ Except.ok (some nodeA) := by
  refine ⟨by decide, by decide, by decide⟩

/-- Claim C6 (amended): adding a title that is not yet a key succeeds:
it appends a work built from the supplied fields, with the freshly
generated uuid4 as id, keyed by the title; the method returns None, so
the caller retrieves the created work from the registry rather than from
the return value. -/
theorem C6_add_fresh_title (tr : ReadingTree) (fresh title : String)
    (author image_url : Option String) (antes : Option (List String))
    (h : title ∉ keys tr) :
    add_node tr fresh title author image_url antes =
      (tr ++
        [(title,
          { id := fresh, title := title, author := author,
            image_url := image_url, antes := antes.getD [] })],
       Except.ok none) := by
  simp [add_node, h, dictInsert, Node.make]

/-- Witness for the amended C6 at the empty registry. -/
theorem C6_witness :
    "A" ∉ keys ([] : ReadingTree) ∧
    add_node [] "f1" "A" none none none =
      (([] : ReadingTree) ++
        [("A",
          { id := "f1", title := "A", author := none,
            image_url := none, antes := (none : Option (List String)).getD [] })],
       Except.ok none) :=
  ⟨by decide, C6_add_fresh_title [] "f1" "A" none none none (by decide)⟩

/-- Claim C7: to_graph on the cyclic registry where X and Y list each
other as prerequisites terminates (it is a total structurally recursive
function, so it terminates on every registry) and returns exactly nodes
X, Y and the two directed edges (Y, X) and (X, Y). -/
theorem C7_cycle_terminates :
    to_graph trXY = { nodes := ["X", "Y"], edges := [("Y", "X"), ("X", "Y")] } := by
  decide

/-- Claim C8: loading from an absent path changes nothing and raises
nothing: the registry before and after the call is identical. -/
theorem C8_load_missing_path (tr : ReadingTree) (freshs : Nat → String) :
    load tr none freshs = (tr, none) := rfl

/-- Claim C4 (the code contradicts it): loading a snapshot whose second
entry lacks the title field over a registry holding the work Old raises
the schema error, yet the registry afterwards is not what it was before:
it has been cleared and partially repopulated with the entry that
preceded the offending one. -/
theorem C4_schema_error_partial_population :
    load trOld (some (Snapshot.entries [dGood, dBad])) (fun _ => "w") =
      ([("A", nodeFromGood)], some LoadError.schemaError) ∧
    ([("A", nodeFromGood)] : ReadingTree) ≠ trOld := by
  constructor <;> decide

end AppTree

namespace AppTree

/-- Membership in the node list after DiGraph.add_node. -/
theorem addNode_nodes_mem (G : Graph) (t x : String) :
    x ∈ (G.add_node t).nodes ↔ x ∈ G.nodes ∨ x = t := by
  unfold Graph.add_node
  by_cases h : t ∈ G.nodes
  · rw [if_pos h]
    exact ⟨Or.inl, fun hx => hx.elim id (fun e => e ▸ h)⟩
  · rw [if_neg h]
    simp

/-- DiGraph.add_node does not touch the edge list. -/
theorem addNode_edges (G : Graph) (t : String) :
    (G.add_node t).edges = G.edges := by
  unfold Graph.add_node
  by_cases h : t ∈ G.nodes <;> simp [h]

/-- DiGraph.add_node keeps the node list duplicate free. -/
theorem addNode_nodes_nodup (G : Graph) (t : String) (h : G.nodes.Nodup) :
    (G.add_node t).nodes.Nodup := by
  unfold Graph.add_node
  by_cases hm : t ∈ G.nodes
  · rw [if_pos hm]; exact h
  · rw [if_neg hm]
    simp only [List.nodup_append]
    refine ⟨h, List.nodup_singleton t, ?_⟩
    intro a ha hb
    rw [List.mem_singleton] at hb
    subst hb
    exact hm ha

/-- Membership in the edge list after DiGraph.add_edge. -/
theorem addEdge_edges_mem (G : Graph) (u v : String) (e : String × String) :
    e ∈ (G.add_edge u v).edges ↔ e ∈ G.edges ∨ e = (u, v) := by
  have h2 : ((G.add_node u).add_node v).edges = G.edges := by
    rw [addNode_edges, addNode_edges]
  unfold Graph.add_edge
  simp only [h2]
  by_cases hm : (u, v) ∈ G.edges
  · rw [if_pos hm]
    simp only [h2]
    exact ⟨Or.inl, fun hx => hx.elim id (fun e2 => e2 ▸ hm)⟩
  · rw [if_neg hm]
    simp [h2]

/-- Membership in the node list after DiGraph.add_edge. -/
theorem addEdge_nodes_mem (G : Graph) (u v x : String) :
    x ∈ (G.add_edge u v).nodes ↔ x ∈ G.nodes ∨ x = u ∨ x = v := by
  have h2 : ∀ H : Graph, ({ H with edges := H.edges ++ [(u, v)] } : Graph).nodes = H.nodes :=
    fun H => rfl
  unfold Graph.add_edge
  by_cases hm : (u, v) ∈ ((G.add_node u).add_node v).edges <;>
    simp [hm, addNode_nodes_mem, or_assoc]

/-- DiGraph.add_edge keeps the node list duplicate free. -/
theorem addEdge_nodes_nodup (G : Graph) (u v : String) (h : G.nodes.Nodup) :
    (G.add_edge u v).nodes.Nodup := by
  have hn : ((G.add_node u).add_node v).nodes.Nodup :=
    addNode_nodes_nodup _ _ (addNode_nodes_nodup _ _ h)
  unfold Graph.add_edge
  by_cases hm : (u, v) ∈ ((G.add_node u).add_node v).edges <;> simp [hm, hn]

/-- DiGraph.add_edge keeps the edge list duplicate free. -/
theorem addEdge_edges_nodup (G : Graph) (u v : String) (h : G.edges.Nodup) :
    (G.add_edge u v).edges.Nodup := by
  have h2 : ((G.add_node u).add_node v).edges = G.edges := by
    rw [addNode_edges, addNode_edges]
  unfold Graph.add_edge
  simp only [h2]
  by_cases hm : (u, v) ∈ G.edges
  · rw [if_pos hm]
    simpa [h2] using h
  · rw [if_neg hm]
    simp only [h2, List.nodup_append]
    refine ⟨h, List.nodup_singleton _, ?_⟩
    intro a ha hb
    rw [List.mem_singleton] at hb
    subst hb
    exact hm ha

/-- Membership in the node list of the first fold of to_graph. -/
theorem nodesFold_nodes_mem (l : List (String × Node)) :
    ∀ (G : Graph) (x : String),
      x ∈ (l.foldl (fun G p => G.add_node p.1) G).nodes ↔
        x ∈ G.nodes ∨ x ∈ keys l := by
  induction l with
  | nil => intro G x; simp [keys]
  | cons p r ih =>
    intro G x
    rw [List.foldl_cons, ih, addNode_nodes_mem]
    simp [keys, or_assoc]

/-- The first fold of to_graph leaves the edge list empty. -/
theorem nodesFold_edges (l : List (String × Node)) :
    ∀ G : Graph, (l.foldl (fun G p => G.add_node p.1) G).edges = G.edges := by
  induction l with
  | nil => intro G; rfl
  | cons p r ih => intro G; rw [List.foldl_cons, ih, addNode_edges]

/-- The first fold of to_graph keeps the node list duplicate free. -/
theorem nodesFold_nodes_nodup (l : List (String × Node)) :
    ∀ G : Graph, G.nodes.Nodup →
      (l.foldl (fun G p => G.add_node p.1) G).nodes.Nodup := by
  induction l with
  | nil => intro G h; exact h
  | cons p r ih =>
    intro G h
    rw [List.foldl_cons]
    exact ih _ (addNode_nodes_nodup _ _ h)

/-- Membership in the edge list after the inner fold over an antes list. -/
theorem innerFold_edges_mem (K : List String) (t : String) (l : List String) :
    ∀ (G : Graph) (e : String × String),
      e ∈ (l.foldl (fun G b => if b ∈ K then G.add_edge b t else G) G).edges ↔
        e ∈ G.edges ∨ ∃ b ∈ l, b ∈ K ∧ e = (b, t) := by
  induction l with
  | nil => intro G e; simp
  | cons b bs ih =>
    intro G e
    rw [List.foldl_cons]
    by_cases hb : b ∈ K
    · rw [if_pos hb, ih, addEdge_edges_mem]
      constructor
      · rintro (⟨h1 | h1⟩ | ⟨c, hc, hcK, hce⟩)
        · exact Or.inl h1
        · exact Or.inr ⟨b, List.mem_cons_self b bs, hb, h1⟩
        · exact Or.inr ⟨c, List.mem_cons_of_mem b hc, hcK, hce⟩
      · rintro (h1 | ⟨c, hc, hcK, hce⟩)
        · exact Or.inl (Or.inl h1)
        · rcases List.mem_cons.1 hc with hcb | hcb
          · subst hcb
            exact Or.inl (Or.inr hce)
          · exact Or.inr ⟨c, hcb, hcK, hce⟩
    · rw [if_neg hb, ih]
      constructor
      · rintro (h1 | ⟨c, hc, hcK, hce⟩)
        · exact Or.inl h1
        · exact Or.inr ⟨c, List.mem_cons_of_mem b hc, hcK, hce⟩
      · rintro (h1 | ⟨c, hc, hcK, hce⟩)
        · exact Or.inl h1
        · rcases List.mem_cons.1 hc with hcb | hcb
          · subst hcb
            exact absurd hcK hb
          · exact Or.inr ⟨c, hcb, hcK, hce⟩

/-- The inner fold only ever adds nodes from K or the target t. -/
theorem innerFold_nodes_sub (K : List String) (t : String) (l : List String)
    (ht : t ∈ K) :
    ∀ (G : Graph) (x : String),
      x ∈ (l.foldl (fun G b => if b ∈ K then G.add_edge b t else G) G).nodes →
        x ∈ G.nodes ∨ x ∈ K := by
  induction l with
  | nil => intro G x hx; exact Or.inl hx
  | cons b bs ih =>
    intro G x hx
    rw [List.foldl_cons] at hx
    by_cases hb : b ∈ K
    · rw [if_pos hb] at hx
      rcases ih _ x hx with h1 | h1
      · rcases (addEdge_nodes_mem G b t x).1 h1 with h2 | h2 | h2
        · exact Or.inl h2
        · exact Or.inr (h2 ▸ hb)
        · exact Or.inr (h2 ▸ ht)
      · exact Or.inr h1
    · rw [if_neg hb] at hx
      exact ih _ x hx

/-- The inner fold never drops a node. -/
theorem innerFold_nodes_sup (K : List String) (t : String) (l : List String) :
    ∀ (G : Graph) (x : String), x ∈ G.nodes →
      x ∈ (l.foldl (fun G b => if b ∈ K then G.add_edge b t else G) G).nodes := by
  induction l with
  | nil => intro G x hx; exact hx
  | cons b bs ih =>
    intro G x hx
    rw [List.foldl_cons]
    by_cases hb : b ∈ K
    · rw [if_pos hb]
      exact ih _ x ((addEdge_nodes_mem G b t x).2 (Or.inl hx))
    · rw [if_neg hb]
      exact ih _ x hx

/-- The inner fold keeps the edge list duplicate free. -/
theorem innerFold_edges_nodup (K : List String) (t : String) (l : List String) :
    ∀ G : Graph, G.edges.Nodup →
      (l.foldl (fun G b => if b ∈ K then G.add_edge b t else G) G).edges.Nodup := by
  induction l with
  | nil => intro G h; exact h
  | cons b bs ih =>
    intro G h
    rw [List.foldl_cons]
    by_cases hb : b ∈ K
    · rw [if_pos hb]; exact ih _ (addEdge_edges_nodup _ _ _ h)
    · rw [if_neg hb]; exact ih _ h

/-- The inner fold keeps the node list duplicate free. -/
theorem innerFold_nodes_nodup (K : List String) (t : String) (l : List String) :
    ∀ G : Graph, G.nodes.Nodup →
      (l.foldl (fun G b => if b ∈ K then G.add_edge b t else G) G).nodes.Nodup := by
  induction l with
  | nil => intro G h; exact h
  | cons b bs ih =>
    intro G h
    rw [List.foldl_cons]
    by_cases hb : b ∈ K
    · rw [if_pos hb]; exact ih _ (addEdge_nodes_nodup _ _ _ h)
    · rw [if_neg hb]; exact ih _ h

end AppTree

namespace AppTree

/-- Membership in the edge list after the outer fold of to_graph. -/
theorem outerFold_edges_mem (K : List String) (l : List (String × Node)) :
    ∀ (G : Graph) (e : String × String),
      e ∈ (l.foldl
        (fun G p => p.2.antes.foldl
          (fun G b => if b ∈ K then G.add_edge b p.1 else G) G) G).edges ↔
        e ∈ G.edges ∨ ∃ p ∈ l, ∃ b ∈ p.2.antes, b ∈ K ∧ e = (b, p.1) := by
  induction l with
  | nil => intro G e; simp
  | cons p r ih =>
    intro G e
    rw [List.foldl_cons, ih, innerFold_edges_mem]
    constructor
    · rintro (⟨h1 | ⟨b, hb, hbK, hbe⟩⟩ | ⟨q, hq, b, hb, hbK, hbe⟩)
      · exact Or.inl h1
      · exact Or.inr ⟨p, List.mem_cons_self p r, b, hb, hbK, hbe⟩
      · exact Or.inr ⟨q, List.mem_cons_of_mem p hq, b, hb, hbK, hbe⟩
    · rintro (h1 | ⟨q, hq, b, hb, hbK, hbe⟩)
      · exact Or.inl (Or.inl h1)
      · rcases List.mem_cons.1 hq with hqp | hqp
        · subst hqp
          exact Or.inl (Or.inr ⟨b, hb, hbK, hbe⟩)
        · exact Or.inr ⟨q, hqp, b, hb, hbK, hbe⟩

/-- The outer fold only ever adds nodes from K. -/
theorem outerFold_nodes_sub (K : List String) (l : List (String × Node))
    (hkeys : ∀ p ∈ l, p.1 ∈ K) :
    ∀ (G : Graph) (x : String),
      x ∈ (l.foldl
        (fun G p => p.2.antes.foldl
          (fun G b => if b ∈ K then G.add_edge b p.1 else G) G) G).nodes →
        x ∈ G.nodes ∨ x ∈ K := by
  induction l with
  | nil => intro G x hx; exact Or.inl hx
  | cons p r ih =>
    intro G x hx
    rw [List.foldl_cons] at hx
    have hr : ∀ q ∈ r, q.1 ∈ K := fun q hq => hkeys q (List.mem_cons_of_mem p hq)
    rcases ih hr _ x hx with h1 | h1
    · exact innerFold_nodes_sub K p.1 p.2.antes
        (hkeys p (List.mem_cons_self p r)) G x h1
    · exact Or.inr h1

/-- The outer fold never drops a node. -/
theorem outerFold_nodes_sup (K : List String) (l : List (String × Node)) :
    ∀ (G : Graph) (x : String), x ∈ G.nodes →
      x ∈ (l.foldl
        (fun G p => p.2.antes.foldl
          (fun G b => if b ∈ K then G.add_edge b p.1 else G) G) G).nodes := by
  induction l with
  | nil => intro G x hx; exact hx
  | cons p r ih =>
    intro G x hx
    rw [List.foldl_cons]
    exact ih _ x (innerFold_nodes_sup K p.1 p.2.antes G x hx)

/-- The outer fold keeps the edge list duplicate free. -/
theorem outerFold_edges_nodup (K : List String) (l : List (String × Node)) :
    ∀ G : Graph, G.edges.Nodup →
      (l.foldl
        (fun G p => p.2.antes.foldl
          (fun G b => if b ∈ K then G.add_edge b p.1 else G) G) G).edges.Nodup := by
  induction l with
  | nil => intro G h; exact h
  | cons p r ih =>
    intro G h
    rw [List.foldl_cons]
    exact ih _ (innerFold_edges_nodup K p.1 p.2.antes G h)

/-- The outer fold keeps the node list duplicate free. -/
theorem outerFold_nodes_nodup (K : List String) (l : List (String × Node)) :
    ∀ G : Graph, G.nodes.Nodup →
      (l.foldl
        (fun G p => p.2.antes.foldl
          (fun G b => if b ∈ K then G.add_edge b p.1 else G) G) G).nodes.Nodup := by
  induction l with
  | nil => intro G h; exact h
  | cons p r ih =>
    intro G h
    rw [List.foldl_cons]
    exact ih _ (innerFold_nodes_nodup K p.1 p.2.antes G h)

/-- The node list of to_graph holds exactly the registry keys. -/
theorem to_graph_nodes_mem (tr : ReadingTree) (x : String) :
    x ∈ (to_graph tr).nodes ↔ x ∈ keys tr := by
  unfold to_graph
  constructor
  · intro hx
    rcases outerFold_nodes_sub (keys tr) tr
      (fun p hp => List.mem_map_of_mem Prod.fst hp) _ x hx with h1 | h1
    · rw [nodesFold_nodes_mem] at h1
      rcases h1 with h2 | h2
      · simp at h2
      · exact h2
    · exact h1
  · intro hx
    apply outerFold_nodes_sup
    rw [nodesFold_nodes_mem]
    exact Or.inr hx

/-- The edge list of to_graph holds exactly the resolved prerequisite
pairs. -/
theorem to_graph_edges_mem (tr : ReadingTree) (u v : String) :
    (u, v) ∈ (to_graph tr).edges ↔
      ∃ p ∈ tr, u ∈ p.2.antes ∧ u ∈ keys tr ∧ v = p.1 := by
  unfold to_graph
  rw [outerFold_edges_mem, nodesFold_edges]
  constructor
  · rintro (h1 | ⟨p, hp, b, hb, hbK, hbe⟩)
    · simp at h1
    · rw [Prod.mk.injEq] at hbe
      exact ⟨p, hp, hbe.1 ▸ hb, hbe.1 ▸ hbK, hbe.2⟩
  · rintro ⟨p, hp, hu, huK, hv⟩
    exact Or.inr ⟨p, hp, u, hu, huK, by rw [hv]⟩

/-- The node list of to_graph is duplicate free. -/
theorem to_graph_nodes_nodup (tr : ReadingTree) : (to_graph tr).nodes.Nodup := by
  unfold to_graph
  exact outerFold_nodes_nodup _ _ _
    (nodesFold_nodes_nodup _ _ List.nodup_nil)

/-- The edge list of to_graph is duplicate free. -/
theorem to_graph_edges_nodup (tr : ReadingTree) : (to_graph tr).edges.Nodup := by
  unfold to_graph
  apply outerFold_edges_nodup
  rw [nodesFold_edges]
  exact List.nodup_nil

/-- Under the key equals title invariant, a string is a key exactly when
some stored work carries it as title. -/
theorem mem_keys_iff_title (tr : ReadingTree) (hinv : KeyInv tr) (x : String) :
    x ∈ keys tr ↔ ∃ p ∈ tr, p.2.title = x := by
  unfold keys
  rw [List.mem_map]
  constructor
  · rintro ⟨p, hp, rfl⟩
    exact ⟨p, hp, hinv p hp⟩
  · rintro ⟨p, hp, h⟩
    exact ⟨p, hp, (hinv p hp) ▸ h⟩

/-- Claim C2: for a registry whose keys are the titles of the stored
works, to_graph returns as nodes exactly the titles in the registry,
each once, and as edges exactly one directed edge (P, W) for each stored
work W and each prerequisite P in its antes list such that P is a title
present in the registry; a prerequisite naming an absent title
contributes nothing, and the function is total so no error occurs. -/
theorem C2_to_graph_characterization (tr : ReadingTree) (hinv : KeyInv tr) :
    (to_graph tr).nodes.Nodup ∧ (to_graph tr).edges.Nodup ∧
    (∀ x, x ∈ (to_graph tr).nodes ↔ ∃ p ∈ tr, p.2.title = x) ∧
    (∀ u v, (u, v) ∈ (to_graph tr).edges ↔
      ∃ p ∈ tr, p.2.title = v ∧ u ∈ p.2.antes ∧ ∃ q ∈ tr, q.2.title = u) := by
  refine ⟨to_graph_nodes_nodup tr, to_graph_edges_nodup tr, ?_, ?_⟩
  · intro x
    rw [to_graph_nodes_mem, mem_keys_iff_title tr hinv]
  · intro u v
    rw [to_graph_edges_mem]
    constructor
    · rintro ⟨p, hp, hu, huK, rfl⟩
      exact ⟨p, hp, hinv p hp, hu, (mem_keys_iff_title tr hinv u).1 huK⟩
    · rintro ⟨p, hp, hv, hu, q, hq, hqt⟩
      refine ⟨p, hp, hu, (mem_keys_iff_title tr hinv u).2 ⟨q, hq, hqt⟩, ?_⟩
      rw [← hv, hinv p hp]

/-- Witness for C2 at the dangling reference registry of the spec. -/
theorem C2_witness :
    KeyInv trABC ∧
    ((to_graph trABC).nodes.Nodup ∧ (to_graph trABC).edges.Nodup ∧
    (∀ x, x ∈ (to_graph trABC).nodes ↔ ∃ p ∈ trABC, p.2.title = x) ∧
    (∀ u v, (u, v) ∈ (to_graph trABC).edges ↔
      ∃ p ∈ trABC, p.2.title = v ∧ u ∈ p.2.antes ∧ ∃ q ∈ trABC, q.2.title = u)) :=
  ⟨by decide, C2_to_graph_characterization trABC (by decide)⟩

end AppTree

namespace AppTree

/-- Reading back a serialized Node restores it exactly, as long as its
id is not the empty string (a uuid4 never is); an empty id would be
falsy in Python and would be regenerated. -/
theorem from_dict_to_dict (fresh : String) (n : Node) (h : n.id ≠ "") :
    Node.from_dict fresh (Node.to_dict n) = Except.ok n := by
  simp [Node.from_dict, Node.to_dict, loadedNode, Node.make, h]

/-- The load loop over serialized works appends them back unchanged when
the keys are the titles, the ids are not empty and no key repeats. -/
theorem loadLoop_save (l : ReadingTree) :
    ∀ (acc : ReadingTree) (freshs : Nat → String) (i : Nat),
      KeyInv l → (∀ p ∈ l, p.2.id ≠ "") → (keys acc ++ keys l).Nodup →
      loadLoop freshs (l.map (fun p => p.2.to_dict)) i acc = (acc ++ l, none) := by
  induction l with
  | nil => intro acc freshs i _ _ _; simp [loadLoop]
  | cons p r ih =>
    intro acc freshs i h1 h2 h3
    have hid : p.2.id ≠ "" := h2 p (List.mem_cons_self p r)
    have htitle : p.2.title = p.1 := h1 p (List.mem_cons_self p r)
    have hfd : Node.from_dict (freshs i) p.2.to_dict = Except.ok p.2 :=
      from_dict_to_dict (freshs i) p.2 hid
    have hstep : loadLoop freshs ((p :: r).map (fun p => p.2.to_dict)) i acc =
        loadLoop freshs (r.map (fun p => p.2.to_dict)) (i + 1)
          (dictInsert acc p.2.title p.2) := by
      rw [List.map_cons]
      show (match Node.from_dict (freshs i) p.2.to_dict with
        | Except.error e => (acc, some e)
        | Except.ok n => loadLoop freshs (r.map (fun q : String × Node => q.2.to_dict)) (i + 1)
            (dictInsert acc n.title n)) = _
      rw [hfd]
    rw [hstep, htitle]
    have hdisj : (keys acc).Disjoint (keys (p :: r)) := (List.nodup_append.1 h3).2.2
    have hnotin : p.1 ∉ keys acc := by
      intro hc
      exact hdisj hc (by simp [keys])
    have hins : dictInsert acc p.1 p.2 = acc ++ [(p.1, p.2)] := by
      unfold dictInsert
      rw [if_neg hnotin]
    rw [hins]
    have h1r : KeyInv r := fun q hq => h1 q (List.mem_cons_of_mem p hq)
    have h2r : ∀ q ∈ r, q.2.id ≠ "" := fun q hq => h2 q (List.mem_cons_of_mem p hq)
    have h3r : (keys (acc ++ [(p.1, p.2)]) ++ keys r).Nodup := by
      have : keys (acc ++ [(p.1, p.2)]) ++ keys r = keys acc ++ keys (p :: r) := by
        simp [keys, List.append_assoc]
      rw [this]
      exact h3
    rw [ih (acc ++ [(p.1, p.2)]) freshs (i + 1) h1r h2r h3r]
    rw [List.append_assoc]
    simp

/-- Claim C3: saving a registry and loading the result into a fresh
registry rebuilds it exactly, titles, authors, image urls, prerequisite
lists and ids all preserved, with no error. The hypotheses are the
invariants every registry built by the program satisfies: keys are the
titles, no key repeats, and no id is the empty string since uuid4 never
produces one. -/
theorem C3_round_trip (tr : ReadingTree) (freshs : Nat → String)
    (h1 : KeyInv tr) (h2 : KeysNodup tr) (h3 : ∀ p ∈ tr, p.2.id ≠ "") :
    load [] (some (save tr)) freshs = (tr, none) := by
  have hload : load [] (some (save tr)) freshs =
      loadLoop freshs (tr.map (fun p => p.2.to_dict)) 0 [] := rfl
  rw [hload]
  have hnodup : (keys ([] : ReadingTree) ++ keys tr).Nodup := by
    simpa [keys] using h2
  rw [loadLoop_save tr [] freshs 0 h1 h3 hnodup]
  simp

/-- Witness for C3 at a two work registry with every field populated. -/
theorem C3_witness :
    (KeyInv trRT ∧ KeysNodup trRT ∧ (∀ p ∈ trRT, p.2.id ≠ "")) ∧
    load [] (some (save trRT)) (fun _ => "w") = (trRT, none) :=
  ⟨⟨by decide, by decide, by decide⟩,
   C3_round_trip trRT (fun _ => "w") (by decide) (by decide) (by decide)⟩

/-- The load loop preserves the key equals title invariant and key
distinctness. -/
theorem loadLoop_inv (freshs : Nat → String) (data : List NodeDict) :
    ∀ (i : Nat) (acc : ReadingTree), KeyInv acc → KeysNodup acc →
      KeyInv (loadLoop freshs data i acc).1 ∧
      KeysNodup (loadLoop freshs data i acc).1 := by
  induction data with
  | nil => intro i acc h1 h2; exact ⟨h1, h2⟩
  | cons d ds ih =>
    intro i acc h1 h2
    cases htd : d.title with
    | none =>
      have hfd : Node.from_dict (freshs i) d = Except.error LoadError.schemaError := by
        simp [Node.from_dict, htd]
      have hstep : loadLoop freshs (d :: ds) i acc = (acc, some LoadError.schemaError) := by
        show (match Node.from_dict (freshs i) d with
          | Except.error e => (acc, some e)
          | Except.ok n => loadLoop freshs ds (i + 1) (dictInsert acc n.title n)) = _
        rw [hfd]
      rw [hstep]
      exact ⟨h1, h2⟩
    | some s =>
      have hfd : Node.from_dict (freshs i) d = Except.ok (loadedNode (freshs i) d s) := by
        simp [Node.from_dict, htd]
      have hstep : loadLoop freshs (d :: ds) i acc =
          loadLoop freshs ds (i + 1) (dictInsert acc s (loadedNode (freshs i) d s)) := by
        show (match Node.from_dict (freshs i) d with
          | Except.error e => (acc, some e)
          | Except.ok n => loadLoop freshs ds (i + 1) (dictInsert acc n.title n)) = _
        rw [hfd]
        rfl
      rw [hstep]
      exact ih (i + 1) _ (keyInv_dictInsert _ _ _ h1 rfl) (keysNodup_dictInsert _ _ _ h2)

/-- Claim C9: every registry state reachable through add_node and load
has each key equal to the title of the work stored under it, and the
keys, hence the titles, are pairwise distinct. -/
theorem C9_reachable_key_invariant (tr : ReadingTree) (h : Reachable tr) :
    KeyInv tr ∧ KeysNodup tr := by
  induction h with
  | init =>
    exact ⟨fun p hp => absurd hp (List.not_mem_nil p), List.nodup_nil⟩
  | step_add tr fresh title author image_url antes hr ih =>
    by_cases hmem : title ∈ keys tr
    · have hsame : (add_node tr fresh title author image_url antes).1 = tr := by
        simp [add_node, hmem]
      rw [hsame]
      exact ih
    · have hins : (add_node tr fresh title author image_url antes).1 =
          dictInsert tr title
            (Node.make fresh title author image_url (some (antes.getD [])) none) := by
        simp [add_node, hmem]
      rw [hins]
      exact ⟨keyInv_dictInsert _ _ _ ih.1 rfl, keysNodup_dictInsert _ _ _ ih.2⟩
  | step_load tr file freshs hr ih =>
    cases file with
    | none => exact ih
    | some s =>
      cases s with
      | malformed => exact ih
      | entries data =>
        have hload : (load tr (some (Snapshot.entries data)) freshs).1 =
            (loadLoop freshs data 0 []).1 := rfl
        rw [hload]
        exact loadLoop_inv freshs data 0 []
          (fun p hp => absurd hp (List.not_mem_nil p)) List.nodup_nil

/-- Witness for C9 at the state reached by one successful add. -/
theorem C9_witness :
    Reachable (add_node [] "f1" "A" none none none).1 ∧
    (KeyInv (add_node [] "f1" "A" none none none).1 ∧
     KeysNodup (add_node [] "f1" "A" none none none).1) :=
  ⟨Reachable.step_add [] "f1" "A" none none none Reachable.init,
   C9_reachable_key_invariant _
     (Reachable.step_add [] "f1" "A" none none none Reachable.init)⟩

/-- The load loop succeeds on entries that all carry a title, and the
value finally stored under a title is the conversion of the last entry
carrying it, entries processed earlier being overwritten in place. -/
theorem loadLoop_last (freshs : Nat → String) (data : List NodeDict) :
    ∀ (i : Nat) (acc : ReadingTree) (t : String),
      (∀ d ∈ data, d.title ≠ none) →
      (loadLoop freshs data i acc).2 = none ∧
      getVal (loadLoop freshs data i acc).1 t =
        (match lastLoaded freshs t data i with
         | some n => some n
         | none => getVal acc t) := by
  induction data with
  | nil => intro i acc t _; exact ⟨rfl, rfl⟩
  | cons d ds ih =>
    intro i acc t h
    have hd : d.title ≠ none := h d (List.mem_cons_self d ds)
    have hds : ∀ x ∈ ds, x.title ≠ none := fun x hx => h x (List.mem_cons_of_mem d hx)
    cases htd : d.title with
    | none => exact absurd htd hd
    | some s =>
      have hfd : Node.from_dict (freshs i) d = Except.ok (loadedNode (freshs i) d s) := by
        simp [Node.from_dict, htd]
      have hstep : loadLoop freshs (d :: ds) i acc =
          loadLoop freshs ds (i + 1) (dictInsert acc s (loadedNode (freshs i) d s)) := by
        show (match Node.from_dict (freshs i) d with
          | Except.error e => (acc, some e)
          | Except.ok n => loadLoop freshs ds (i + 1) (dictInsert acc n.title n)) = _
        rw [hfd]
        rfl
      obtain ⟨he, hv⟩ := ih (i + 1) (dictInsert acc s (loadedNode (freshs i) d s)) t hds
      rw [hstep]
      refine ⟨he, ?_⟩
      rw [hv]
      have hlast : lastLoaded freshs t (d :: ds) i =
          (match lastLoaded freshs t ds (i + 1) with
           | some n => some n
           | none => if s = t then some (loadedNode (freshs i) d s) else none) := by
        show (match lastLoaded freshs t ds (i + 1) with
          | some n => some n
          | none =>
            match d.title with
            | some s2 => if s2 = t then some (loadedNode (freshs i) d s2) else none
            | none => none) = _
        rw [htd]
      rw [hlast]
      cases hl : lastLoaded freshs t ds (i + 1) with
      | some n => rfl
      | none =>
        rw [getVal_dictInsert]
        by_cases hst : s = t
        · have hts : t = s := hst.symm
          rw [if_pos hst, if_pos hts]
        · have hts : ¬ t = s := fun hc => hst hc.symm
          rw [if_neg hst, if_neg hts]

/-- Claim C10: loading a well formed snapshot, even one with repeated
titles, raises nothing; the registry afterwards has pairwise distinct
keys and stores under each title exactly the conversion of the last
entry carrying that title, the earlier ones having been overwritten. -/
theorem C10_duplicate_titles_last_wins (tr0 : ReadingTree)
    (data : List NodeDict) (freshs : Nat → String) (t : String)
    (h : ∀ d ∈ data, d.title ≠ none) :
    (load tr0 (some (Snapshot.entries data)) freshs).2 = none ∧
    getVal (load tr0 (some (Snapshot.entries data)) freshs).1 t =
      lastLoaded freshs t data 0 ∧
    KeysNodup (load tr0 (some (Snapshot.entries data)) freshs).1 := by
  have hmain := loadLoop_last freshs data 0 [] t h
  have hinv := loadLoop_inv freshs data 0 []
    (fun p hp => absurd hp (List.not_mem_nil p)) List.nodup_nil
  have hload : load tr0 (some (Snapshot.entries data)) freshs =
      loadLoop freshs data 0 [] := rfl
  rw [hload]
  refine ⟨hmain.1, ?_, hinv.2⟩
  rw [hmain.2]
  exact optionMatchId _

/-- Witness for C10 at a snapshot holding two entries titled T. -/
theorem C10_witness :
    (∀ d ∈ [dT1, dT2], d.title ≠ none) ∧
    ((load [] (some (Snapshot.entries [dT1, dT2])) (fun _ => "w")).2 = none ∧
     getVal (load [] (some (Snapshot.entries [dT1, dT2])) (fun _ => "w")).1 "T" =
       lastLoaded (fun _ => "w") "T" [dT1, dT2] 0 ∧
     KeysNodup (load [] (some (Snapshot.entries [dT1, dT2])) (fun _ => "w")).1) :=
  ⟨by decide,
   C10_duplicate_titles_last_wins [] [dT1, dT2] (fun _ => "w") "T" (by decide)⟩

end AppTree
